import Mathlib

/-!
Verification of the paged KV-cache core of the `ater` repository.

The repository sources under `src/csrc` contain the Python-binding registration
surface (`rocm_ops.cpp`) and declarations (`attention_asm.h`, `smoothquant.h`).
The registration table is embedded directly from `rocm_ops.cpp`.  The kernels
behind the registered names (paged attention, cache writer, block mover,
quantization codec) are not part of the sources, so they are modelled from the
specification, as noted on each definition.
-/

namespace Ater

/-! ## Module registration surface, embedded from src/csrc/rocm_ops.cpp -/

/-- One `m.def(name, &symbol, doc)` registration in the PYBIND11_MODULE block of
`src/csrc/rocm_ops.cpp`.  `symbol` is the native function the name is bound to;
`doc` is the docstring (adjacent C string literals concatenated), `""` when the
registration carries no docstring. -/
structure ModuleDef where
  name : String
  symbol : String
  doc : String
deriving DecidableEq

/-- The registration list of `PYBIND11_MODULE` in `src/csrc/rocm_ops.cpp`, in
source order.  `findCK` reflects the `#if defined(FIND_CK)` conditional block. -/
def rocmOpsDefs (findCK : Bool) : List ModuleDef :=
  [⟨"topk_softmax", "topk_softmax", "Apply topk softmax to the gating outputs."⟩,
   ⟨"moe_align_block_size", "moe_align_block_size",
    "Aligning the number of tokens to be processed by each expert such "
      ++ "that it is divisible by the block size."⟩,
   ⟨"silu_and_mul", "silu_and_mul", "Activation function used in SwiGLU."⟩,
   ⟨"moe_sum", "moe_sum", "moe_sum(Tensor! input, Tensor output) -> ()"⟩,
   ⟨"paged_attention_rocm", "paged_attention",
    "paged_attention_rocm(Tensor! out, Tensor exp_sums,"
      ++ "                Tensor max_logits, Tensor tmp_out,"
      ++ "                Tensor query, Tensor key_cache,"
      ++ "                Tensor value_cache, int num_kv_heads,"
      ++ "                float scale, Tensor block_tables,"
      ++ "                Tensor context_lens, int block_size,"
      ++ "                int max_context_len,"
      ++ "                Tensor? alibi_slopes,"
      ++ "                str kv_cache_dtype,"
      ++ "                float k_scale, float v_scale) -> ()"⟩,
   ⟨"swap_blocks", "swap_blocks",
    "swap_blocks(Tensor src, Tensor! dst, Tensor block_mapping) -> ()"⟩,
   ⟨"copy_blocks", "copy_blocks",
    "copy_blocks(Tensor(a!)[] key_caches, Tensor[](b!) value_caches, "
      ++ "Tensor block_mapping) -> ()"⟩,
   ⟨"reshape_and_cache", "reshape_and_cache",
    "reshape_and_cache(Tensor key, Tensor value,"
      ++ "                  Tensor! key_cache, Tensor! value_cache,"
      ++ "                  Tensor slot_mapping,"
      ++ "                  str kv_cache_dtype,"
      ++ "                  float k_scale, float v_scale) -> ()"⟩,
   ⟨"reshape_and_cache_flash", "reshape_and_cache_flash",
    "reshape_and_cache_flash(Tensor key, Tensor value,"
      ++ "                        Tensor! key_cache,"
      ++ "                        Tensor! value_cache,"
      ++ "                        Tensor slot_mapping,"
      ++ "                        str kv_cache_dtype,"
      ++ "                        float k_scale, float v_scale) -> ()"⟩,
   ⟨"reshape_and_cache_with_pertoken_quant", "reshape_and_cache_with_pertoken_quant",
    "reshape_and_cache_with_pertoken_quant(Tensor key, Tensor value,"
      ++ "                  Tensor! key_cache, Tensor! value_cache,"
      ++ "                  Tensor! k_dequant_scales, Tensor! v_dequant_scales,"
      ++ "                  Tensor slot_mapping) -> ()"⟩,
   ⟨"convert_fp8", "convert_fp8",
    "convert_fp8(Tensor! dst_cache, Tensor src_cache, float scale, "
      ++ "str kv_cache_dtype) -> ()"⟩,
   ⟨"dispose", "dispose", ""⟩,
   ⟨"meta_size", "meta_size", ""⟩,
   ⟨"register_buffer", "register_buffer",
    "register_buffer(int fa, Tensor t, str[] handles, "
      ++ "int[] offsets) -> ()"⟩,
   ⟨"get_graph_buffer_ipc_meta", "get_graph_buffer_ipc_meta", ""⟩,
   ⟨"register_graph_buffers", "register_graph_buffers", ""⟩]
  ++ (if findCK then
      [⟨"moe_smoothquant_fwd", "moe_smoothquant_fwd", ""⟩,
       ⟨"moe_sorting_fwd", "moe_sorting_fwd", ""⟩,
       ⟨"pa_fwd_naive", "pa_fwd_naive", "pa_fwd_naive"⟩]
      else [])
  ++ [⟨"fmoe", "fmoe", ""⟩,
      ⟨"fmoe_int8_g1u0", "fmoe_int8_g1u0", ""⟩,
      ⟨"fmoe_int8_g1u0_a16", "fmoe_int8_g1u0_a16", ""⟩,
      ⟨"transpose_add", "transpose_add", "apply for add with transpose."⟩,
      ⟨"transpose_mul", "transpose_mul", "apply for mul with transpose."⟩,
      ⟨"transpose_sub", "transpose_sub", "apply for sub with transpose."⟩,
      ⟨"transpose_div", "transpose_div", "apply for div with transpose."⟩,
      ⟨"pa_fwd_asm", "pa_fwd", "pa_fwd"⟩,
      ⟨"gemm_a8w8_asm", "gemm_a8w8_asm",
       "Asm gemm a8w8 ,  weight should be shuffle to layout(32,16)"⟩,
      ⟨"all_reduce_asm", "all_reduce_asm", ""⟩,
      ⟨"reshape_and_cache_with_pertoken_quant", "reshape_and_cache_with_pertoken_quant",
       "reshape_and_cache_with_pertoken_quant(Tensor key, Tensor value,"
         ++ "                        Tensor! key_cache,"
         ++ "                        Tensor! value_cache,"
         ++ "                        Tensor! k_dequant_scales,"
         ++ "                        Tensor! v_dequant_scales,"
         ++ "                        Tensor slot_mapping,"
         ++ "                        str kv_cache_dtype) -> ()"⟩,
      ⟨"convert_fp8", "convert_fp8",
       "convert_fp8(Tensor! dst_cache, Tensor src_cache, float scale, "
         ++ "str kv_cache_dtype) -> ()"⟩]

/-- The native symbols bound to an exported `name`, in registration order: a
call through `name` dispatches to one of these. -/
def bindingsOf (findCK : Bool) (name : String) : List String :=
  (rocmOpsDefs findCK).filterMap fun d => if d.name = name then some d.symbol else none

/-! ## Quantization Codec (spec §4.4, §7c, §9) -/

/-- Modelled from the spec: the scalar quantizer shared by the Quantization
Codec (`convert_fp8`) and the Cache Writer.  The implementation behind
`convert_fp8` is not under `src/`; per spec §4.4 a quantized value `q`
represents `q * scale`, so encoding divides by the Scale Factor and rounds to
the nearest representable integer, and per §7c / §9 a magnitude beyond the
representable range `[qmin, qmax]` saturates (clamps) to the range boundary
instead of wrapping, and is not an error (the function is total). -/
def quantize (scale : ℚ) (qmin qmax : ℤ) (x : ℚ) : ℤ :=
  max qmin (min qmax (round (x / scale)))

/-- Modelled from the spec: decoding a quantized value recovers `q * scale`
(spec §3, Scale Factor invariant). -/
def dequantize (scale : ℚ) (q : ℤ) : ℚ :=
  (q : ℚ) * scale

/-- Modelled from the spec: `convert_fp8` (`convertEncoding`, spec §4.4) reads
every entry of the source cache, rescales by the single shared `scale`, and
re-encodes into the destination representation.  The cache is modelled as the
flat list of its full-precision entries. -/
def convert_fp8 (scale : ℚ) (qmin qmax : ℤ) (src_cache : List ℚ) : List ℤ :=
  src_cache.map (quantize scale qmin qmax)

/-! ## Block Mover (spec §4.3, §5) -/

/-- Content of one physical block: the values stored in its `block_size` slots,
abstracted as a flat list (the Mover is layout- and precision-agnostic; it
copies whole blocks). -/
abbrev Block := List ℤ

/-- A Block Store pair: one list of key blocks and one of value blocks, indexed
by physical block id. -/
structure BlockStore where
  kBlocks : List Block
  vBlocks : List Block
deriving DecidableEq

/-- Block read by physical id, with a default for ids outside the store (an id
not currently allocated is a caller contract violation, spec §4.1, modelled as
reading an empty block). -/
def readBlock (c : List Block) (i : ℕ) : Block :=
  c.getD i []

/-- Modelled from the spec: one plane of `copy_blocks`.  For every pair
`(src, dst)` of the block mapping the full source block content is copied over
the destination block; all pairs are logically simultaneous (spec §5), so every
read sees the pre-call state.  A block not named as a destination is left
unchanged; when one destination is named by several pairs the first pair in the
mapping provides its content. -/
def copyBlocksPlane (mapping : List (ℕ × ℕ)) (c : List Block) : List Block :=
  (List.range c.length).map fun d =>
    match mapping.find? (fun p => p.2 = d) with
    | some p => readBlock c p.1
    | none => readBlock c d

/-- Modelled from the spec: `copy_blocks` (spec §4.3) applies the block mapping
to the key blocks and to the value blocks of the store.  The implementation
behind the registered name is not under `src/`. -/
def copy_blocks (mapping : List (ℕ × ℕ)) (st : BlockStore) : BlockStore :=
  { kBlocks := copyBlocksPlane mapping st.kBlocks
    vBlocks := copyBlocksPlane mapping st.vBlocks }

/-! ## Cache Writer (spec §4.2) -/

/-- One incoming token for the Writer: its key vector, its value vector, and
its slot-mapping entry.  A negative slot entry is the "skip" sentinel
(spec §4.2, special value: padding tokens are not written). -/
abbrev Token := List ℚ × List ℚ × ℤ

/-- The Writer-visible cache state: quantized key and value entries per
absolute slot, plus the per-token dequantization Scale Factor arrays. -/
structure WriterState where
  kCache : List (List ℤ)
  vCache : List (List ℤ)
  kScales : List ℚ
  vScales : List ℚ
deriving DecidableEq

/-- Maximum absolute magnitude of a vector (`0` for the empty vector). -/
def maxAbs (v : List ℚ) : ℚ :=
  v.foldl (fun m x => max m |x|) 0

/-- Modelled from the spec: the per-token Scale Factor is derived from the
vector's maximum absolute magnitude and the target encoding's representable
range (spec §4.2 mode 2): `scale = maxAbs v / qmax`. -/
def deriveScale (qmax : ℤ) (v : List ℚ) : ℚ :=
  maxAbs v / (qmax : ℚ)

/-- Quantization of a whole vector with one scale. -/
def quantVec (scale : ℚ) (qmin qmax : ℤ) (v : List ℚ) : List ℤ :=
  v.map (quantize scale qmin qmax)

/-- Modelled from the spec: one fixed-scale-mode write (spec §4.2 mode 1).  The
token's key and value are quantized with the caller-supplied global scales and
stored at the mapped slot; a sentinel (negative) slot entry writes nothing.
The Scale Factor arrays are never touched in this mode. -/
def writeTokenFixed (qmin qmax : ℤ) (kScale vScale : ℚ) (st : WriterState) (t : Token) :
    WriterState :=
  if t.2.2 < 0 then st
  else
    { st with
      kCache := st.kCache.set t.2.2.toNat (quantVec kScale qmin qmax t.1)
      vCache := st.vCache.set t.2.2.toNat (quantVec vScale qmin qmax t.2.1) }

/-- Modelled from the spec: one per-token-mode write (spec §4.2 mode 2).  For a
non-sentinel token the Writer derives the per-token Scale Factor of the key
(resp. value) vector, quantizes with it, and stores the derived scale alongside
the entry in the dequant-scale arrays; a sentinel (negative) slot entry writes
nothing and alters no Scale Factor. -/
def writeTokenPertoken (qmin qmax : ℤ) (st : WriterState) (t : Token) : WriterState :=
  if t.2.2 < 0 then st
  else
    { kCache := st.kCache.set t.2.2.toNat (quantVec (deriveScale qmax t.1) qmin qmax t.1)
      vCache := st.vCache.set t.2.2.toNat (quantVec (deriveScale qmax t.2.1) qmin qmax t.2.1)
      kScales := st.kScales.set t.2.2.toNat (deriveScale qmax t.1)
      vScales := st.vScales.set t.2.2.toNat (deriveScale qmax t.2.1) }

/-- Fixed-scale-mode batch write over the incoming tokens. -/
def writeBatchFixed (qmin qmax : ℤ) (kScale vScale : ℚ) (toks : List Token)
    (st : WriterState) : WriterState :=
  toks.foldl (writeTokenFixed qmin qmax kScale vScale) st

/-- Per-token-mode batch write over the incoming tokens. -/
def writeBatchPertoken (qmin qmax : ℤ) (toks : List Token) (st : WriterState) : WriterState :=
  toks.foldl (writeTokenPertoken qmin qmax) st

/-- Modelled from the spec: `reshape_and_cache` (fixed-scale mode, spec §4.2
mode 1) over parallel key, value and slot-mapping arrays.  The implementation
behind the registered name is not under `src/`. -/
def reshape_and_cache (qmin qmax : ℤ) (kScale vScale : ℚ) (keys values : List (List ℚ))
    (slot_mapping : List ℤ) (st : WriterState) : WriterState :=
  writeBatchFixed qmin qmax kScale vScale (keys.zip (values.zip slot_mapping)) st

/-- Modelled from the spec: `reshape_and_cache_with_pertoken_quant` (per-token
mode, spec §4.2 mode 2) over parallel key, value and slot-mapping arrays.  The
implementation behind the registered name is not under `src/`. -/
def reshape_and_cache_with_pertoken_quant (qmin qmax : ℤ) (keys values : List (List ℚ))
    (slot_mapping : List ℤ) (st : WriterState) : WriterState :=
  writeBatchPertoken qmin qmax (keys.zip (values.zip slot_mapping)) st

/-! ## Paged Attention Kernel (spec §4.5, §9) -/

/-- One attention token as seen by the softmax accumulator: its raw score and
its value vector (head dimension indexed by `ℕ`). -/
abbrev Tok := ℝ × (ℕ → ℝ)

/-- The running numerically-stable softmax accumulator of spec §9: an explicit
(running max, running sum, running weighted value) triple. -/
structure SMState where
  m : ℝ
  z : ℝ
  acc : ℕ → ℝ

/-- Modelled from the spec: folding one token into the running softmax
(spec §4.5, §9): rebase both running sums to the new running max and add the
token's contribution. -/
noncomputable def smStep (a : SMState) (t : Tok) : SMState :=
  { m := max a.m t.1
    z := a.z * Real.exp (a.m - max a.m t.1) + Real.exp (t.1 - max a.m t.1)
    acc := fun j =>
      a.acc j * Real.exp (a.m - max a.m t.1) + t.2 j * Real.exp (t.1 - max a.m t.1) }

/-- The empty accumulator. -/
def smInit : SMState :=
  { m := 0, z := 0, acc := fun _ => 0 }

/-- Single streaming reduction over a token list (spec §9: an explicit fold,
not a second full pass). -/
noncomputable def smRun (ts : List Tok) : SMState :=
  ts.foldl smStep smInit

/-- Final normalization of an accumulator: the weighted value sum divided by
the softmax normalizer.  An empty context leaves `z = 0` and the quotient is
the defined all-zero output (spec §4.5 edge case). -/
noncomputable def smOut (a : SMState) : ℕ → ℝ :=
  fun j => a.acc j / a.z

/-- Modelled from the spec: merging two partial softmax accumulators in the
split/accumulate strategy (spec §4.5): rebase both partials to the common max
and add. -/
noncomputable def combine (a b : SMState) : SMState :=
  { m := max a.m b.m
    z := a.z * Real.exp (a.m - max a.m b.m) + b.z * Real.exp (b.m - max a.m b.m)
    acc := fun j =>
      a.acc j * Real.exp (a.m - max a.m b.m) + b.acc j * Real.exp (b.m - max a.m b.m) }

/-- Final reduction across the per-chunk partial accumulators of the
split/accumulate strategy. -/
noncomputable def reduceParts (parts : List SMState) : SMState :=
  parts.foldl combine smInit

/-- Dot product over head dimension `d`. -/
noncomputable def dot (d : ℕ) (q k : ℕ → ℝ) : ℝ :=
  ((List.range d).map fun i => q i * k i).sum

/-- Number of logical blocks covering a context of `ctx` tokens with blocks of
`bs` slots: `⌈ctx / bs⌉`. -/
def numBlocks (bs ctx : ℕ) : ℕ :=
  (ctx + bs - 1) / bs

/-- Valid slots of logical block `b`: a full block holds `bs` valid slots, the
final partially-filled block only `ctx - b * bs`; trailing slots beyond that
are invalid and masked out (spec §4.5 edge case, §3 Context Length). -/
def validSlots (bs ctx b : ℕ) : ℕ :=
  min bs (ctx - b * bs)

/-- Modelled from the spec: the (logical block, offset) pairs the Kernel visits
for one sequence — its logical blocks in order, and inside each block only the
valid slots, the masked trailing slots of the last partial block excluded. -/
def blockSlots (bs ctx : ℕ) : List (ℕ × ℕ) :=
  (List.range (numBlocks bs ctx)).flatMap fun b =>
    (List.range (validSlots bs ctx b)).map fun o => (b, o)

/-- Modelled from the spec: the token stream one sequence feeds to the
accumulator.  Block `b`, slot `o` is reached through the indirection table
(`bt`), the key is scored against the query, the value vector is carried
alongside (spec §4.5 algorithm). -/
noncomputable def pagedTokens (d : ℕ) (scale : ℝ) (q : ℕ → ℝ)
    (kc vc : ℕ → ℕ → ℕ → ℝ) (bt : ℕ → ℕ) (bs ctx : ℕ) : List Tok :=
  (blockSlots bs ctx).map fun p =>
    (scale * dot d q (kc (bt p.1) p.2), vc (bt p.1) p.2)

/-- Modelled from the spec: the single-sequence paged attention kernel
(`pa_fwd`, declared in `src/csrc/include/attention_asm.h`; its implementation
is not under `src/`).  Direct single-pass strategy: one streaming running
softmax fold over the sequence's valid (block, slot) pairs, then the final
normalization. -/
noncomputable def pa_fwd (d : ℕ) (scale : ℝ) (q : ℕ → ℝ)
    (kc vc : ℕ → ℕ → ℕ → ℝ) (bt : ℕ → ℕ) (bs ctx : ℕ) : ℕ → ℝ :=
  smOut (smRun (pagedTokens d scale q kc vc bt bs ctx))

/-- Modelled from the spec: the split/accumulate strategy (spec §4.5): the
token stream is cut into context chunks, each chunk is folded into a partial
accumulator, and a final reduction merges the partials before normalizing. -/
noncomputable def attendSplit (chunks : List (List Tok)) : ℕ → ℝ :=
  smOut (reduceParts (chunks.map smRun))

/-- Reference dense-attention computation over `n` tokens: plain softmax of
the raw scores weighting the value vectors (spec §4.5: the output must equal
this reference over exactly the valid tokens). -/
noncomputable def denseAttend (d n : ℕ) (scale : ℝ) (q : ℕ → ℝ)
    (ks vs : ℕ → ℕ → ℝ) : ℕ → ℝ :=
  fun j =>
    ((List.range n).map fun i => vs i j * Real.exp (scale * dot d q (ks i))).sum /
      ((List.range n).map fun i => Real.exp (scale * dot d q (ks i))).sum

/-- The tensors named in the `paged_attention_rocm` binding of
`src/csrc/rocm_ops.cpp`: the output and scratch buffers (`out`, `exp_sums`,
`max_logits`, `tmp_out`) and the inputs (`query`, `key_cache`, `value_cache`,
`block_tables`, `context_lens`), indexed per sequence. -/
structure PAState where
  out : ℕ → ℕ → ℝ
  exp_sums : ℕ → ℝ
  max_logits : ℕ → ℝ
  tmp_out : ℕ → ℕ → ℝ
  query : ℕ → ℕ → ℝ
  key_cache : ℕ → ℕ → ℕ → ℝ
  value_cache : ℕ → ℕ → ℕ → ℝ
  block_tables : ℕ → ℕ → ℕ
  context_lens : ℕ → ℕ

/-- Modelled from the spec: the `paged_attention` operation bound in
`src/csrc/rocm_ops.cpp` (implementation not under `src/`) as a transformer on
the binding's tensors: every sequence's output is its `pa_fwd` result, the
scratch buffers receive the accumulator's intermediates, and the input tensors
are carried through unchanged. -/
noncomputable def paged_attention (d : ℕ) (scale : ℝ) (bs : ℕ) (st : PAState) : PAState :=
  { out := fun seq => pa_fwd d scale (st.query seq) st.key_cache st.value_cache
      (st.block_tables seq) bs (st.context_lens seq)
    exp_sums := fun seq => (smRun (pagedTokens d scale (st.query seq) st.key_cache
      st.value_cache (st.block_tables seq) bs (st.context_lens seq))).z
    max_logits := fun seq => (smRun (pagedTokens d scale (st.query seq) st.key_cache
      st.value_cache (st.block_tables seq) bs (st.context_lens seq))).m
    tmp_out := fun seq => (smRun (pagedTokens d scale (st.query seq) st.key_cache
      st.value_cache (st.block_tables seq) bs (st.context_lens seq))).acc
    query := st.query
    key_cache := st.key_cache
    value_cache := st.value_cache
    block_tables := st.block_tables
    context_lens := st.context_lens }

/-! ## Running-softmax characterization -/

theorem exp_mul_z_foldl (ts : List Tok) (a : SMState) :
    Real.exp (ts.foldl smStep a).m * (ts.foldl smStep a).z
      = Real.exp a.m * a.z + (ts.map fun t => Real.exp t.1).sum := by
  induction ts generalizing a with
  | nil => simp
  | cons t ts ih =>
    rw [List.foldl_cons, ih]
    have h : Real.exp (smStep a t).m * (smStep a t).z
        = Real.exp a.m * a.z + Real.exp t.1 := by
      simp only [smStep, Real.exp_sub]
      field_simp
      ring
    rw [h, List.map_cons, List.sum_cons]
    ring

theorem exp_mul_acc_foldl (ts : List Tok) (a : SMState) (j : ℕ) :
    Real.exp (ts.foldl smStep a).m * (ts.foldl smStep a).acc j
      = Real.exp a.m * a.acc j + (ts.map fun t => t.2 j * Real.exp t.1).sum := by
  induction ts generalizing a with
  | nil => simp
  | cons t ts ih =>
    rw [List.foldl_cons, ih]
    have h : Real.exp (smStep a t).m * (smStep a t).acc j
        = Real.exp a.m * a.acc j + t.2 j * Real.exp t.1 := by
      simp only [smStep, Real.exp_sub]
      field_simp
      ring
    rw [h, List.map_cons, List.sum_cons]
    ring

theorem exp_mul_z_reduce (ps : List SMState) (a : SMState) :
    Real.exp (ps.foldl combine a).m * (ps.foldl combine a).z
      = Real.exp a.m * a.z + (ps.map fun p => Real.exp p.m * p.z).sum := by
  induction ps generalizing a with
  | nil => simp
  | cons p ps ih =>
    rw [List.foldl_cons, ih]
    have h : Real.exp (combine a p).m * (combine a p).z
        = Real.exp a.m * a.z + Real.exp p.m * p.z := by
      simp only [combine, Real.exp_sub]
      field_simp
      ring
    rw [h, List.map_cons, List.sum_cons]
    ring

theorem exp_mul_acc_reduce (ps : List SMState) (a : SMState) (j : ℕ) :
    Real.exp (ps.foldl combine a).m * (ps.foldl combine a).acc j
      = Real.exp a.m * a.acc j + (ps.map fun p => Real.exp p.m * p.acc j).sum := by
  induction ps generalizing a with
  | nil => simp
  | cons p ps ih =>
    rw [List.foldl_cons, ih]
    have h : Real.exp (combine a p).m * (combine a p).acc j
        = Real.exp a.m * a.acc j + Real.exp p.m * p.acc j := by
      simp only [combine, Real.exp_sub]
      field_simp
      ring
    rw [h, List.map_cons, List.sum_cons]
    ring

theorem smRun_z_char (ts : List Tok) :
    Real.exp (smRun ts).m * (smRun ts).z = (ts.map fun t => Real.exp t.1).sum := by
  have h := exp_mul_z_foldl ts smInit
  simpa [smRun, smInit] using h

theorem smRun_acc_char (ts : List Tok) (j : ℕ) :
    Real.exp (smRun ts).m * (smRun ts).acc j
      = (ts.map fun t => t.2 j * Real.exp t.1).sum := by
  have h := exp_mul_acc_foldl ts smInit j
  simpa [smRun, smInit] using h

theorem smOut_smRun (ts : List Tok) :
    smOut (smRun ts) = fun j =>
      (ts.map fun t => t.2 j * Real.exp t.1).sum / (ts.map fun t => Real.exp t.1).sum := by
  funext j
  calc smOut (smRun ts) j
      = Real.exp (smRun ts).m * (smRun ts).acc j /
          (Real.exp (smRun ts).m * (smRun ts).z) :=
        (mul_div_mul_left _ _ (Real.exp_ne_zero _)).symm
    _ = _ := by rw [smRun_z_char, smRun_acc_char]

theorem smOut_reduceParts (chunks : List (List Tok)) :
    smOut (reduceParts (chunks.map smRun)) = smOut (smRun chunks.flatten) := by
  have hsum : ∀ f : Tok → ℝ,
      (chunks.flatten.map f).sum = (chunks.map fun c => (c.map f).sum).sum := by
    intro f
    rw [List.map_flatten, List.sum_flatten, List.map_map]
    rfl
  funext j
  have hz : Real.exp (reduceParts (chunks.map smRun)).m * (reduceParts (chunks.map smRun)).z
      = ((chunks.map smRun).map fun p => Real.exp p.m * p.z).sum := by
    have h := exp_mul_z_reduce (chunks.map smRun) smInit
    simpa [reduceParts, smInit] using h
  have ha : Real.exp (reduceParts (chunks.map smRun)).m *
        (reduceParts (chunks.map smRun)).acc j
      = ((chunks.map smRun).map fun p => Real.exp p.m * p.acc j).sum := by
    have h := exp_mul_acc_reduce (chunks.map smRun) smInit j
    simpa [reduceParts, smInit] using h
  have hzc : ((chunks.map smRun).map fun p => Real.exp p.m * p.z).sum
      = (chunks.map fun c => (c.map fun t => Real.exp t.1).sum).sum := by
    rw [List.map_map]
    apply congrArg
    apply List.map_congr_left
    intro c _
    exact smRun_z_char c
  have hac : ((chunks.map smRun).map fun p => Real.exp p.m * p.acc j).sum
      = (chunks.map fun c => (c.map fun t => t.2 j * Real.exp t.1).sum).sum := by
    rw [List.map_map]
    apply congrArg
    apply List.map_congr_left
    intro c _
    exact smRun_acc_char c j
  rw [smOut_smRun]
  calc smOut (reduceParts (chunks.map smRun)) j
      = Real.exp (reduceParts (chunks.map smRun)).m * (reduceParts (chunks.map smRun)).acc j /
          (Real.exp (reduceParts (chunks.map smRun)).m * (reduceParts (chunks.map smRun)).z) :=
        (mul_div_mul_left _ _ (Real.exp_ne_zero _)).symm
    _ = (chunks.flatten.map fun t => t.2 j * Real.exp t.1).sum /
          (chunks.flatten.map fun t => Real.exp t.1).sum := by
        rw [hz, ha, hzc, hac, hsum, hsum]

/-! ## Block iteration with masking equals the flat gather of the valid tokens -/

theorem blockSlots_eq_range (bs : ℕ) (hbs : 0 < bs) (ctx : ℕ) :
    blockSlots bs ctx = (List.range ctx).map fun i => (i / bs, i % bs) := by
  induction ctx using Nat.strong_induction_on with
  | _ ctx ih =>
    rcases Nat.eq_zero_or_pos ctx with hz | hpos
    · subst hz
      have hnb : numBlocks bs 0 = 0 := by
        rw [numBlocks]
        exact Nat.div_eq_of_lt (by omega)
      simp [blockSlots, hnb]
    rcases le_or_lt ctx bs with hle | hgt
    · -- 0 < ctx ≤ bs : a single (possibly partial) block
      have hnb : numBlocks bs ctx = 1 := by
        rw [numBlocks]
        have h1 : ctx + bs - 1 = (ctx - 1) + bs := by omega
        rw [h1, Nat.add_div_right _ hbs, Nat.div_eq_of_lt (by omega)]
      have hvs : validSlots bs ctx 0 = ctx := by
        rw [validSlots]
        omega
      rw [blockSlots, hnb]
      have hr1 : List.range 1 = [0] := rfl
      rw [hr1]
      simp only [List.flatMap_cons, List.flatMap_nil, List.append_nil, hvs]
      apply List.map_congr_left
      intro i hi
      have hilt : i < ctx := List.mem_range.mp hi
      rw [Nat.div_eq_of_lt (by omega), Nat.mod_eq_of_lt (by omega)]
    · -- bs < ctx : peel one full block off the front
      obtain ⟨c, rfl⟩ : ∃ c, ctx = bs + c := ⟨ctx - bs, by omega⟩
      have hcpos : 0 < c := by omega
      have hnb : numBlocks bs (bs + c) = 1 + numBlocks bs c := by
        rw [numBlocks, numBlocks]
        have h1 : bs + c + bs - 1 = (c + bs - 1) + bs := by omega
        rw [h1, Nat.add_div_right _ hbs]
        omega
      have hvs0 : validSlots bs (bs + c) 0 = bs := by
        rw [validSlots]
        omega
      have hvsS : ∀ b : ℕ, validSlots bs (bs + c) (1 + b) = validSlots bs c b := by
        intro b
        rw [validSlots, validSlots]
        have h1 : (1 + b) * bs = bs + b * bs := by ring
        rw [h1]
        omega
      rw [blockSlots, hnb, List.range_add, List.flatMap_append, List.flatMap_map]
      have hhead : (List.range 1).flatMap
          (fun b => (List.range (validSlots bs (bs + c) b)).map fun o => (b, o))
          = (List.range bs).map fun o => ((0 : ℕ), o) := by
        have hr1 : List.range 1 = [0] := rfl
        rw [hr1]
        simp only [List.flatMap_cons, List.flatMap_nil, List.append_nil, hvs0]
      have htail : ((List.range (numBlocks bs c)).flatMap fun b =>
            (List.range (validSlots bs (bs + c) (1 + b))).map fun o => (1 + b, o))
          = (List.range c).map fun i => (1 + i / bs, i % bs) := by
        have hfun : (fun b => (List.range (validSlots bs (bs + c) (1 + b))).map
              fun o => ((1 + b : ℕ), o))
            = fun b => ((List.range (validSlots bs c b)).map fun o => (b, o)).map
                fun p => (1 + p.1, p.2) := by
          funext b
          rw [hvsS, List.map_map]
          rfl
        rw [hfun, ← List.map_flatMap, ← blockSlots, ih c (by omega), List.map_map]
        rfl
      rw [hhead, htail, List.range_add, List.map_append, List.map_map]
      have hheadr : ((List.range bs).map fun o => ((0 : ℕ), o))
          = (List.range bs).map fun i => (i / bs, i % bs) := by
        apply List.map_congr_left
        intro i hi
        have hilt : i < bs := List.mem_range.mp hi
        rw [Nat.div_eq_of_lt (by omega), Nat.mod_eq_of_lt (by omega)]
      have htailr : ((List.range c).map fun i => (1 + i / bs, i % bs))
          = (List.range c).map ((fun i => (i / bs, i % bs)) ∘ (bs + ·)) := by
        apply List.map_congr_left
        intro i _
        have hdiv : (bs + i) / bs = 1 + i / bs := by
          rw [Nat.add_comm bs i, Nat.add_div_right _ hbs]
          omega
        have hmod : (bs + i) % bs = i % bs := Nat.add_mod_left bs i
        simp only [Function.comp_apply, hdiv, hmod]
      rw [hheadr, htailr]

theorem pagedTokens_eq_flat (d : ℕ) (scale : ℝ) (q : ℕ → ℝ) (kc vc : ℕ → ℕ → ℕ → ℝ)
    (bt : ℕ → ℕ) (bs ctx : ℕ) (hbs : 0 < bs) :
    pagedTokens d scale q kc vc bt bs ctx
      = (List.range ctx).map fun i =>
          (scale * dot d q (kc (bt (i / bs)) (i % bs)), vc (bt (i / bs)) (i % bs)) := by
  rw [pagedTokens, blockSlots_eq_range bs hbs ctx, List.map_map]
  rfl

/-! ## Claim theorems -/

/-- Claim C1: for a sequence whose context length is not a multiple of the
block size, the kernel visits only the first `ctx mod bs` slots of the last
(partially filled) block — the invalid trailing slots are masked out — and the
paged block-by-block attention output equals the reference dense-attention
computation over exactly the first `ctx` tokens reached through the
indirection table.  (With `bs = 16` and `ctx = 20` the second block contributes
slots `0..3` only, i.e. slots `4..15` are masked.) -/
theorem c1_last_block_mask (d bs ctx : ℕ) (scale : ℝ) (q : ℕ → ℝ)
    (kc vc : ℕ → ℕ → ℕ → ℝ) (bt : ℕ → ℕ) (hbs : 0 < bs) (hnd : ¬ bs ∣ ctx) :
    validSlots bs ctx (ctx / bs) = ctx % bs ∧
    pa_fwd d scale q kc vc bt bs ctx
      = denseAttend d ctx scale q (fun i => kc (bt (i / bs)) (i % bs))
          (fun i => vc (bt (i / bs)) (i % bs)) := by
  constructor
  · rw [validSlots]
    have hdm := Nat.div_add_mod ctx bs
    have hmlt : ctx % bs < bs := Nat.mod_lt ctx hbs
    have h1 : ctx / bs * bs = bs * (ctx / bs) := Nat.mul_comm _ _
    omega
  · funext j
    rw [pa_fwd, pagedTokens_eq_flat d scale q kc vc bt bs ctx hbs, smOut_smRun]
    simp only [List.map_map, Function.comp_def, denseAttend]

/-- Claim C2: a sequence with context length `0` produces the defined all-zero
output — the accumulator folds over no tokens and the final normalization of
the empty accumulator is `0`, with no error signalled (the kernel is a total
function). -/
theorem c2_zero_context (d : ℕ) (scale : ℝ) (q : ℕ → ℝ) (kc vc : ℕ → ℕ → ℕ → ℝ)
    (bt : ℕ → ℕ) (bs : ℕ) :
    pa_fwd d scale q kc vc bt bs 0 = fun _ => 0 := by
  have hnb : numBlocks bs 0 = 0 := by
    cases bs with
    | zero => rfl
    | succ n =>
      rw [numBlocks]
      exact Nat.div_eq_of_lt (by omega)
  have htok : pagedTokens d scale q kc vc bt bs 0 = [] := by
    rw [pagedTokens, blockSlots, hnb]
    rfl
  funext j
  rw [pa_fwd, htok]
  show smOut (smRun []) j = 0
  rw [smRun, List.foldl_nil]
  show smInit.acc j / smInit.z = 0
  rw [smInit]
  simp

/-- Claim C3: on identical data, the split/accumulate strategy — per-chunk
partial softmax accumulators merged by a final reduction — produces exactly
the same output as the direct single-pass strategy, for every chunking of the
sequence's token stream (exact equality in the real-number model, which
subsumes the floating-point reassociation tolerance). -/
theorem c3_split_eq_direct (d : ℕ) (scale : ℝ) (q : ℕ → ℝ) (kc vc : ℕ → ℕ → ℕ → ℝ)
    (bt : ℕ → ℕ) (bs ctx : ℕ) (chunks : List (List Tok))
    (hpart : chunks.flatten = pagedTokens d scale q kc vc bt bs ctx) :
    attendSplit chunks = pa_fwd d scale q kc vc bt bs ctx := by
  rw [pa_fwd, ← hpart, attendSplit, smOut_reduceParts]

/-- Claim C9: the PYBIND11_MODULE block of `src/csrc/rocm_ops.cpp` registers
the names `reshape_and_cache_with_pertoken_quant` and `convert_fp8` twice
each — with and without the FIND_CK conditional block — and both registrations
of each name bind the same underlying native function, so a call dispatched
through either registration reaches the same function. -/
theorem c9_duplicate_registrations :
    (bindingsOf true "reshape_and_cache_with_pertoken_quant"
        = ["reshape_and_cache_with_pertoken_quant", "reshape_and_cache_with_pertoken_quant"] ∧
      bindingsOf false "reshape_and_cache_with_pertoken_quant"
        = ["reshape_and_cache_with_pertoken_quant", "reshape_and_cache_with_pertoken_quant"]) ∧
    (bindingsOf true "convert_fp8" = ["convert_fp8", "convert_fp8"] ∧
      bindingsOf false "convert_fp8" = ["convert_fp8", "convert_fp8"]) := by
  exact ⟨⟨by decide, by decide⟩, ⟨by decide, by decide⟩⟩

/-- Claim C10: `paged_attention` leaves the `query`, `key_cache`,
`value_cache`, `block_tables` and `context_lens` inputs unchanged; only the
declared output and scratch buffers (`out`, `exp_sums`, `max_logits`,
`tmp_out`) receive the results of the computation. -/
theorem c10_attend_frame (d : ℕ) (scale : ℝ) (bs : ℕ) (st : PAState) :
    (paged_attention d scale bs st).query = st.query ∧
    (paged_attention d scale bs st).key_cache = st.key_cache ∧
    (paged_attention d scale bs st).value_cache = st.value_cache ∧
    (paged_attention d scale bs st).block_tables = st.block_tables ∧
    (paged_attention d scale bs st).context_lens = st.context_lens :=
  ⟨rfl, rfl, rfl, rfl, rfl⟩

/-! ## Quantization codec theorems -/

theorem round_mono_rat {x y : ℚ} (h : x ≤ y) : round x ≤ round y := by
  rw [round_eq, round_eq]
  exact Int.floor_mono (by linarith)

/-- Claim C4, counterexample: the round-trip bound does not hold for every
full-precision value — a value whose scaled magnitude exceeds the encoding's
representable range saturates (as §7c requires), and the reconstruction error
then exceeds `scale / 2`.  Concretely, with `scale = 1` and range
`[-448, 448]`, the value `1000` encodes to `448` and decodes to `448`. -/
theorem c4_roundtrip_counterexample :
    ¬ (|(1000 : ℚ) - dequantize 1 (quantize 1 (-448) 448 1000)| ≤ 1 / 2) := by
  have h1 : ((1000 : ℚ) / 1) = ((1000 : ℤ) : ℚ) := by norm_num
  have hq : quantize 1 (-448) 448 1000 = 448 := by
    rw [quantize, h1, round_intCast]
    decide
  rw [hq, dequantize]
  rw [abs_of_nonneg (by norm_num)]
  norm_num

/-- Claim C4, amended: for every value whose quotient by the Scale Factor lies
inside the representable range `[qmin, qmax]` (so that no saturation occurs),
encoding with `convert_fp8`'s quantizer and decoding reconstructs the value
within half a quantization step: `|x - dequant (quant x)| ≤ scale / 2`. -/
theorem c4_roundtrip_in_range (scale : ℚ) (qmin qmax : ℤ) (x : ℚ) (hs : 0 < scale)
    (hlo : (qmin : ℚ) ≤ x / scale) (hhi : x / scale ≤ (qmax : ℚ)) :
    |x - dequantize scale (quantize scale qmin qmax x)| ≤ scale / 2 := by
  have hup : round (x / scale) ≤ qmax := by
    have h := round_mono_rat hhi
    rwa [round_intCast] at h
  have hdn : qmin ≤ round (x / scale) := by
    have h := round_mono_rat hlo
    rwa [round_intCast] at h
  have hq : quantize scale qmin qmax x = round (x / scale) := by
    rw [quantize, min_eq_right hup, max_eq_right hdn]
  rw [hq, dequantize]
  have hx : x - (round (x / scale) : ℚ) * scale = (x / scale - round (x / scale)) * scale := by
    field_simp
    ring
  rw [hx, abs_mul, abs_of_pos hs]
  have habs : |x / scale - round (x / scale)| ≤ 1 / 2 := abs_sub_round (x / scale)
  calc |x / scale - round (x / scale)| * scale ≤ 1 / 2 * scale :=
        mul_le_mul_of_nonneg_right habs (le_of_lt hs)
    _ = scale / 2 := by ring

/-- Claim C8: when the scaled magnitude reaches or exceeds the representable
range, the shared quantizer of the Writer and of `convert_fp8` saturates the
result to the range boundary (`qmax` above, `qmin` below) instead of wrapping
around, and signals no error (it is a total function). -/
theorem c8_saturates (scale : ℚ) (qmin qmax : ℤ) (x : ℚ) (h : qmin ≤ qmax) :
    ((qmax : ℚ) ≤ x / scale → quantize scale qmin qmax x = qmax) ∧
    (x / scale ≤ (qmin : ℚ) → quantize scale qmin qmax x = qmin) := by
  constructor
  · intro hx
    have h1 : qmax ≤ round (x / scale) := by
      have hr := round_mono_rat hx
      rwa [round_intCast] at hr
    rw [quantize, min_eq_left h1, max_eq_right h]
  · intro hx
    have h1 : round (x / scale) ≤ qmin := by
      have hr := round_mono_rat hx
      rwa [round_intCast] at hr
    rw [quantize, min_eq_right (le_trans h1 h), max_eq_left h1]

/-! ## Block mover theorems -/

theorem length_copyBlocksPlane (m : List (ℕ × ℕ)) (c : List Block) :
    (copyBlocksPlane m c).length = c.length := by
  rw [copyBlocksPlane, List.length_map, List.length_range]

theorem readBlock_copyBlocksPlane (m : List (ℕ × ℕ)) (c : List Block) (i : ℕ)
    (hi : i < c.length) :
    readBlock (copyBlocksPlane m c) i
      = match m.find? (fun p => p.2 = i) with
        | some p => readBlock c p.1
        | none => readBlock c i := by
  rw [readBlock, copyBlocksPlane]
  have h1 : ((List.range c.length).map fun d =>
      match m.find? (fun p => p.2 = d) with
      | some p => readBlock c p.1
      | none => readBlock c d)[i]?
      = some (match m.find? (fun p => p.2 = i) with
        | some p => readBlock c p.1
        | none => readBlock c i) := by
    simp [List.getElem?_map, List.getElem?_range hi]
  simp [List.getD, h1]

theorem readBlock_out_of_range (c : List Block) (i : ℕ) (hi : c.length ≤ i) :
    readBlock c i = [] := by
  rw [readBlock]
  simp [List.getD, List.getElem?_eq_none hi]

theorem getElem?_copyBlocksPlane (m : List (ℕ × ℕ)) (c : List Block) (i : ℕ)
    (hi : i < c.length) :
    (copyBlocksPlane m c)[i]?
      = some (match m.find? (fun p => p.2 = i) with
        | some p => readBlock c p.1
        | none => readBlock c i) := by
  rw [copyBlocksPlane]
  simp [List.getElem?_map, List.getElem?_range hi]

theorem copyBlocksPlane_idem (m : List (ℕ × ℕ)) (c : List Block)
    (h : ∀ p ∈ m, ∀ q ∈ m, p.1 ≠ q.2) :
    copyBlocksPlane m (copyBlocksPlane m c) = copyBlocksPlane m c := by
  have hlen := length_copyBlocksPlane m c
  have hsrc : ∀ p ∈ m, readBlock (copyBlocksPlane m c) p.1 = readBlock c p.1 := by
    intro p hp
    rcases Nat.lt_or_ge p.1 c.length with hlt | hge
    · rw [readBlock_copyBlocksPlane m c p.1 hlt]
      have hnone : m.find? (fun q => q.2 = p.1) = none := by
        apply List.find?_eq_none.2
        intro q hq
        simp only [decide_eq_true_eq]
        exact fun he => h p hp q hq he.symm
      rw [hnone]
    · rw [readBlock_out_of_range _ _ (hlen ▸ hge), readBlock_out_of_range _ _ hge]
  apply List.ext_getElem?
  intro i
  rcases Nat.lt_or_ge i c.length with hic | hge
  · rw [getElem?_copyBlocksPlane m (copyBlocksPlane m c) i (by omega),
      getElem?_copyBlocksPlane m c i hic]
    cases hfind : m.find? (fun p => p.2 = i) with
    | none =>
      simp only [hfind]
      rw [readBlock_copyBlocksPlane m c i hic, hfind]
    | some p =>
      simp only [hfind]
      rw [hsrc p (List.mem_of_find?_eq_some hfind)]
  · rw [List.getElem?_eq_none (by rw [length_copyBlocksPlane, hlen]; omega),
      List.getElem?_eq_none (by rw [hlen]; omega)]

/-- Claim C5, counterexample: `copy_blocks` is not idempotent for every block
mapping — with the mapping `[(0, 1), (1, 2)]` a source block (`1`) is also a
destination, so the second call copies the freshly overwritten content of
block `1` into block `2` and the destination content differs from a single
call. -/
theorem c5_idempotence_counterexample :
    copy_blocks [(0, 1), (1, 2)]
        (copy_blocks [(0, 1), (1, 2)] ⟨[[1], [2], [3]], []⟩)
      ≠ copy_blocks [(0, 1), (1, 2)] ⟨[[1], [2], [3]], []⟩ := by
  decide

/-- Claim C5, amended: when no source block id of the mapping is also a
destination block id (which the spec's simultaneity model §5 needs for the
pairs to be order-independent), calling `copy_blocks` twice with the same
mapping leaves exactly the same destination content as calling it once. -/
theorem c5_copy_blocks_idempotent (m : List (ℕ × ℕ)) (st : BlockStore)
    (h : ∀ p ∈ m, ∀ q ∈ m, p.1 ≠ q.2) :
    copy_blocks m (copy_blocks m st) = copy_blocks m st := by
  simp only [copy_blocks]
  rw [copyBlocksPlane_idem m st.kBlocks h, copyBlocksPlane_idem m st.vBlocks h]

/-! ## Cache writer theorems -/

/-- Claim C6: a token whose slot-mapping entry carries the skip sentinel
(a negative slot) writes nothing, in both write modes: processing a batch
leaves exactly the state obtained by processing only its non-sentinel tokens —
the target slots' prior key/value content and every Scale Factor are
completely unchanged by the sentinel tokens. -/
theorem c6_skip_sentinel (qmin qmax : ℤ) (kScale vScale : ℚ) (toks : List Token)
    (st : WriterState) :
    writeBatchFixed qmin qmax kScale vScale toks st
      = writeBatchFixed qmin qmax kScale vScale
          (toks.filter fun t => decide (0 ≤ t.2.2)) st ∧
    writeBatchPertoken qmin qmax toks st
      = writeBatchPertoken qmin qmax (toks.filter fun t => decide (0 ≤ t.2.2)) st := by
  induction toks generalizing st with
  | nil => exact ⟨rfl, rfl⟩
  | cons t ts ih =>
    by_cases hneg : t.2.2 < 0
    · have hp : (decide (0 ≤ t.2.2)) = false := by
        simp [hneg]
      rw [List.filter_cons, hp]
      simp only [Bool.false_eq_true, if_false]
      constructor
      · rw [writeBatchFixed, List.foldl_cons]
        have hskip : writeTokenFixed qmin qmax kScale vScale st t = st := by
          rw [writeTokenFixed, if_pos hneg]
        rw [hskip]
        exact (ih st).1
      · rw [writeBatchPertoken, List.foldl_cons]
        have hskip : writeTokenPertoken qmin qmax st t = st := by
          rw [writeTokenPertoken, if_pos hneg]
        rw [hskip]
        exact (ih st).2
    · have hp : (decide (0 ≤ t.2.2)) = true := by
        simp
        omega
      rw [List.filter_cons, hp]
      simp only [if_true]
      constructor
      · rw [writeBatchFixed, List.foldl_cons, writeBatchFixed, List.foldl_cons]
        exact (ih (writeTokenFixed qmin qmax kScale vScale st t)).1
      · rw [writeBatchPertoken, List.foldl_cons, writeBatchPertoken, List.foldl_cons]
        exact (ih (writeTokenPertoken qmin qmax st t)).2

theorem writeTokenPertoken_lengths (qmin qmax : ℤ) (st : WriterState) (t : Token) :
    (writeTokenPertoken qmin qmax st t).kCache.length = st.kCache.length ∧
    (writeTokenPertoken qmin qmax st t).vCache.length = st.vCache.length ∧
    (writeTokenPertoken qmin qmax st t).kScales.length = st.kScales.length ∧
    (writeTokenPertoken qmin qmax st t).vScales.length = st.vScales.length := by
  rw [writeTokenPertoken]
  by_cases hneg : t.2.2 < 0
  · rw [if_pos hneg]
    exact ⟨rfl, rfl, rfl, rfl⟩
  · rw [if_neg hneg]
    exact ⟨List.length_set _ _ _, List.length_set _ _ _,
      List.length_set _ _ _, List.length_set _ _ _⟩

theorem writeBatchPertoken_frame (qmin qmax : ℤ) (toks : List Token) (st : WriterState)
    (s : ℕ) (h : ∀ t ∈ toks, t.2.2.toNat ≠ s) :
    (writeBatchPertoken qmin qmax toks st).kCache[s]? = st.kCache[s]? ∧
    (writeBatchPertoken qmin qmax toks st).vCache[s]? = st.vCache[s]? ∧
    (writeBatchPertoken qmin qmax toks st).kScales[s]? = st.kScales[s]? ∧
    (writeBatchPertoken qmin qmax toks st).vScales[s]? = st.vScales[s]? := by
  induction toks generalizing st with
  | nil => exact ⟨rfl, rfl, rfl, rfl⟩
  | cons t ts ih =>
    have hstep : (writeTokenPertoken qmin qmax st t).kCache[s]? = st.kCache[s]? ∧
        (writeTokenPertoken qmin qmax st t).vCache[s]? = st.vCache[s]? ∧
        (writeTokenPertoken qmin qmax st t).kScales[s]? = st.kScales[s]? ∧
        (writeTokenPertoken qmin qmax st t).vScales[s]? = st.vScales[s]? := by
      rw [writeTokenPertoken]
      by_cases hneg : t.2.2 < 0
      · rw [if_pos hneg]
        exact ⟨rfl, rfl, rfl, rfl⟩
      · rw [if_neg hneg]
        have hne : t.2.2.toNat ≠ s := h t (List.mem_cons_self t ts)
        exact ⟨List.getElem?_set_ne hne, List.getElem?_set_ne hne,
          List.getElem?_set_ne hne, List.getElem?_set_ne hne⟩
    have htail := ih (writeTokenPertoken qmin qmax st t)
      (fun t' ht' => h t' (List.mem_cons_of_mem t ht'))
    rw [writeBatchPertoken, List.foldl_cons] at *
    exact ⟨htail.1.trans hstep.1, htail.2.1.trans hstep.2.1,
      htail.2.2.1.trans hstep.2.2.1, htail.2.2.2.trans hstep.2.2.2⟩

/-- Claim C7: in per-token mode, for every non-skipped token of a batch whose
slot entries are in range and distinct, the Writer stores at the token's slot
the key (resp. value) vector quantized with the Scale Factor derived from the
vector's maximum absolute magnitude and the encoding's representable range,
and stores that derived scale in the `k_dequant_scales` / `v_dequant_scales`
arrays at the same slot. -/
theorem c7_pertoken_scale_quant (qmin qmax : ℤ) (L : ℕ) (toks : List Token)
    (st : WriterState) (h1 : st.kCache.length = L) (h2 : st.vCache.length = L)
    (h3 : st.kScales.length = L) (h4 : st.vScales.length = L)
    (hlt : ∀ t ∈ toks, t.2.2.toNat < L)
    (hnd : (toks.map fun t => t.2.2.toNat).Nodup)
    (k v : List ℚ) (slot : ℤ) (hslot : ¬ slot < 0) (hmem : (k, v, slot) ∈ toks) :
    (writeBatchPertoken qmin qmax toks st).kScales[slot.toNat]?
      = some (deriveScale qmax k) ∧
    (writeBatchPertoken qmin qmax toks st).vScales[slot.toNat]?
      = some (deriveScale qmax v) ∧
    (writeBatchPertoken qmin qmax toks st).kCache[slot.toNat]?
      = some (quantVec (deriveScale qmax k) qmin qmax k) ∧
    (writeBatchPertoken qmin qmax toks st).vCache[slot.toNat]?
      = some (quantVec (deriveScale qmax v) qmin qmax v) := by
  induction toks generalizing st with
  | nil => cases hmem
  | cons t ts ih =>
    rw [List.map_cons, List.nodup_cons] at hnd
    rcases List.mem_cons.mp hmem with heq | hmem'
    · subst heq
      rw [writeBatchPertoken, List.foldl_cons]
      have hframe := writeBatchPertoken_frame qmin qmax ts
        (writeTokenPertoken qmin qmax st (k, v, slot)) slot.toNat
        (fun t' ht' hcol => hnd.1 (hcol ▸ List.mem_map_of_mem (fun t => t.2.2.toNat) ht'))
      have hwrite : (writeTokenPertoken qmin qmax st (k, v, slot)).kScales[slot.toNat]?
            = some (deriveScale qmax k) ∧
          (writeTokenPertoken qmin qmax st (k, v, slot)).vScales[slot.toNat]?
            = some (deriveScale qmax v) ∧
          (writeTokenPertoken qmin qmax st (k, v, slot)).kCache[slot.toNat]?
            = some (quantVec (deriveScale qmax k) qmin qmax k) ∧
          (writeTokenPertoken qmin qmax st (k, v, slot)).vCache[slot.toNat]?
            = some (quantVec (deriveScale qmax v) qmin qmax v) := by
        rw [writeTokenPertoken, if_neg hslot]
        have hlt' := hlt (k, v, slot) (List.mem_cons_self _ _)
        exact ⟨List.getElem?_set_self (by omega), List.getElem?_set_self (by omega),
          List.getElem?_set_self (by omega), List.getElem?_set_self (by omega)⟩
      rw [writeBatchPertoken] at hframe
      exact ⟨hframe.2.2.1.trans hwrite.1, hframe.2.2.2.trans hwrite.2.1,
        hframe.1.trans hwrite.2.2.1, hframe.2.1.trans hwrite.2.2.2⟩
    · rw [writeBatchPertoken, List.foldl_cons]
      have hlens := writeTokenPertoken_lengths qmin qmax st t
      have := ih (writeTokenPertoken qmin qmax st t)
        (hlens.1.trans h1) (hlens.2.1.trans h2) (hlens.2.2.1.trans h3)
        (hlens.2.2.2.trans h4)
        (fun t' ht' => hlt t' (List.mem_cons_of_mem t ht')) hnd.2 hmem'
      rw [writeBatchPertoken] at this
      exact this

/-! ## Concrete witnesses -/

theorem c1_witness :
    0 < 16 ∧ ¬ (16 ∣ 20) ∧
    (validSlots 16 20 (20 / 16) = 20 % 16 ∧
      pa_fwd 1 1 (fun _ => 1) (fun b s _ => (b : ℝ) + s) (fun b s _ => (b : ℝ) * 16 + s)
          (fun b => b) 16 20
        = denseAttend 1 20 1 (fun _ => 1)
            (fun i _ => ((i / 16 : ℕ) : ℝ) + ((i % 16 : ℕ) : ℝ))
            (fun i _ => ((i / 16 : ℕ) : ℝ) * 16 + ((i % 16 : ℕ) : ℝ))) :=
  ⟨by decide, by decide,
    c1_last_block_mask 1 16 20 1 (fun _ => 1) (fun b s _ => (b : ℝ) + s)
      (fun b s _ => (b : ℝ) * 16 + s) (fun b => b) (by decide) (by decide)⟩

theorem c3_witness :
    ([pagedTokens 1 1 (fun _ => 1) (fun _ _ _ => 1) (fun _ _ _ => 1) (fun b => b) 2 3]
        : List (List Tok)).flatten
      = pagedTokens 1 1 (fun _ => 1) (fun _ _ _ => 1) (fun _ _ _ => 1) (fun b => b) 2 3 ∧
    attendSplit [pagedTokens 1 1 (fun _ => 1) (fun _ _ _ => 1) (fun _ _ _ => 1)
        (fun b => b) 2 3]
      = pa_fwd 1 1 (fun _ => 1) (fun _ _ _ => 1) (fun _ _ _ => 1) (fun b => b) 2 3 :=
  ⟨by simp,
    c3_split_eq_direct 1 1 (fun _ => 1) (fun _ _ _ => 1) (fun _ _ _ => 1) (fun b => b) 2 3
      [pagedTokens 1 1 (fun _ => 1) (fun _ _ _ => 1) (fun _ _ _ => 1) (fun b => b) 2 3]
      (by simp)⟩

theorem c4_witness :
    (0 : ℚ) < 2 ∧ ((-10 : ℤ) : ℚ) ≤ 3 / 2 ∧ (3 : ℚ) / 2 ≤ ((10 : ℤ) : ℚ) ∧
    |(3 : ℚ) - dequantize 2 (quantize 2 (-10) 10 3)| ≤ 2 / 2 :=
  ⟨by norm_num, by norm_num, by norm_num,
    c4_roundtrip_in_range 2 (-10) 10 3 (by norm_num) (by norm_num) (by norm_num)⟩

theorem c5_witness :
    (∀ p ∈ [((0 : ℕ), (1 : ℕ))], ∀ q ∈ [((0 : ℕ), (1 : ℕ))], p.1 ≠ q.2) ∧
    copy_blocks [(0, 1)] (copy_blocks [(0, 1)] ⟨[[5], [7]], [[1], [2]]⟩)
      = copy_blocks [(0, 1)] ⟨[[5], [7]], [[1], [2]]⟩ :=
  ⟨by decide, c5_copy_blocks_idempotent [(0, 1)] ⟨[[5], [7]], [[1], [2]]⟩ (by decide)⟩

theorem c7_witness :
    (⟨[[], []], [[], []], [0, 0], [0, 0]⟩ : WriterState).kCache.length = 2 ∧
    (⟨[[], []], [[], []], [0, 0], [0, 0]⟩ : WriterState).vCache.length = 2 ∧
    (⟨[[], []], [[], []], [0, 0], [0, 0]⟩ : WriterState).kScales.length = 2 ∧
    (⟨[[], []], [[], []], [0, 0], [0, 0]⟩ : WriterState).vScales.length = 2 ∧
    (∀ t ∈ [(([1, -3], [2], (0 : ℤ)) : Token), ([4], [5, 6], (1 : ℤ))], t.2.2.toNat < 2) ∧
    (([(([1, -3], [2], (0 : ℤ)) : Token), ([4], [5, 6], (1 : ℤ))].map
        fun t => t.2.2.toNat).Nodup) ∧
    ¬ (0 : ℤ) < 0 ∧
    (([1, -3], [2], (0 : ℤ)) : Token)
        ∈ [(([1, -3], [2], (0 : ℤ)) : Token), ([4], [5, 6], (1 : ℤ))] ∧
    ((writeBatchPertoken (-127) 127 [(([1, -3], [2], (0 : ℤ)) : Token), ([4], [5, 6], (1 : ℤ))]
          ⟨[[], []], [[], []], [0, 0], [0, 0]⟩).kScales[(0 : ℤ).toNat]?
        = some (deriveScale 127 [1, -3]) ∧
      (writeBatchPertoken (-127) 127 [(([1, -3], [2], (0 : ℤ)) : Token), ([4], [5, 6], (1 : ℤ))]
          ⟨[[], []], [[], []], [0, 0], [0, 0]⟩).vScales[(0 : ℤ).toNat]?
        = some (deriveScale 127 [2]) ∧
      (writeBatchPertoken (-127) 127 [(([1, -3], [2], (0 : ℤ)) : Token), ([4], [5, 6], (1 : ℤ))]
          ⟨[[], []], [[], []], [0, 0], [0, 0]⟩).kCache[(0 : ℤ).toNat]?
        = some (quantVec (deriveScale 127 [1, -3]) (-127) 127 [1, -3]) ∧
      (writeBatchPertoken (-127) 127 [(([1, -3], [2], (0 : ℤ)) : Token), ([4], [5, 6], (1 : ℤ))]
          ⟨[[], []], [[], []], [0, 0], [0, 0]⟩).vCache[(0 : ℤ).toNat]?
        = some (quantVec (deriveScale 127 [2]) (-127) 127 [2])) :=
  ⟨rfl, rfl, rfl, rfl, by decide, by decide, by decide, List.mem_cons_self _ _,
    c7_pertoken_scale_quant (-127) 127 2
      [(([1, -3], [2], (0 : ℤ)) : Token), ([4], [5, 6], (1 : ℤ))]
      ⟨[[], []], [[], []], [0, 0], [0, 0]⟩ rfl rfl rfl rfl (by decide) (by decide)
      [1, -3] [2] 0 (by decide) (List.mem_cons_self _ _)⟩

theorem c8_witness :
    (-7 : ℤ) ≤ 7 ∧
    ((((7 : ℤ) : ℚ) ≤ 100 / 1 → quantize 1 (-7) 7 100 = 7) ∧
      ((100 : ℚ) / 1 ≤ ((-7 : ℤ) : ℚ) → quantize 1 (-7) 7 100 = -7)) :=
  ⟨by decide, c8_saturates 1 (-7) 7 100 (by decide)⟩

end Ater
